import Mathlib

/-!
Shallow embedding of the audiobook synthesis pipeline and timing index
(`audio_reader.py`, `timing_service.py`).

Conventions of the embedding:
* Python floats are modelled as exact rationals (`ℚ`); all arithmetic in the
  pipeline (proportional apportionment, running clock) is plain field
  arithmetic, so `ℚ` tracks the intended values exactly.
* MongoDB collections are modelled as lists of documents in insertion
  (natural) order; `find_one` scans in that order, `find().sort(k)` sorts the
  filtered list, `delete_many` filters, `insert_many` appends one document at
  a time, enforcing the unique `(book_id, segment_index)` index that
  `TimingService._create_indexes` creates.
* Fallible code returns `Except String _`; a raised exception is `.error`.
-/

/-- A processed segment as built by
`analyze_text_and_assign_voices_with_gemini` (audio_reader.py, the
`processed_segments.append({...})` dict): `text` is the SSML-tagged synthesis
text, `original_text` the plain text.  `language` is an optional key read with
`segment.get("language", "en")` in `generate_audio_group_websocket`. -/
structure Segment where
  speaker : String
  original_text : String
  text : String
  voice_id : String
  emotion : String
  has_laughter : Bool
  scene_id : String
  language : Option String
deriving DecidableEq

/-! ## SegmentGrouper

`process_book` (audio_reader.py lines 1645-1663) and
`stream_audio_from_segments` (lines 1506-1518) contain the identical grouping
loop: `current_group = [segments[0]]`; for each later segment, compare its
`voice_id` with the previous segment's; on a match append to
`current_group`, otherwise emit `current_group` and start a new one; finally
emit the trailing `current_group`.  An empty input skips the whole block. -/

/-- The body of the grouping loop.  `currentGroup` is the accumulating group,
`prev` the previous segment (`segments[i-1]`), `rest` the segments not yet
visited. -/
def groupLoop (currentGroup : List Segment) (prev : Segment) :
    List Segment → List (List Segment)
  | [] => [currentGroup]
  | seg :: rest =>
    if seg.voice_id = prev.voice_id then
      groupLoop (currentGroup ++ [seg]) seg rest
    else
      currentGroup :: groupLoop [seg] seg rest

/-- Grouping of segments by `voice_id`, as in `process_book` /
`stream_audio_from_segments`. -/
def groupSegments : List Segment → List (List Segment)
  | [] => []
  | s :: rest => groupLoop [s] s rest

/-- The voice of a group: the `voice_id` of its first segment ("" for the
empty group, which the grouper never produces). -/
def groupVoice : List Segment → String
  | [] => ""
  | s :: _ => s.voice_id

theorem groupLoop_join (rest : List Segment) :
    ∀ (cur : List Segment) (prev : Segment),
      (groupLoop cur prev rest).flatten = cur ++ rest := by
  induction rest with
  | nil => intro cur prev; simp [groupLoop]
  | cons seg rest ih =>
    intro cur prev
    by_cases h : seg.voice_id = prev.voice_id
    · simp [groupLoop, h, ih]
    · simp [groupLoop, h, ih]

theorem groupLoop_first (rest : List Segment) :
    ∀ (cur : List Segment) (prev : Segment),
      ∃ ext out, groupLoop cur prev rest = (cur ++ ext) :: out := by
  induction rest with
  | nil => intro cur prev; exact ⟨[], [], by simp [groupLoop]⟩
  | cons seg rest ih =>
    intro cur prev
    by_cases h : seg.voice_id = prev.voice_id
    · obtain ⟨ext, out, hout⟩ := ih (cur ++ [seg]) seg
      exact ⟨[seg] ++ ext, out, by simp [groupLoop, h, hout]⟩
    · exact ⟨[], groupLoop [seg] seg rest, by simp [groupLoop, h]⟩

theorem groupLoop_homog (rest : List Segment) :
    ∀ (cur : List Segment) (prev : Segment),
      cur ≠ [] → (∀ s ∈ cur, s.voice_id = prev.voice_id) →
      ∀ g ∈ groupLoop cur prev rest,
        g ≠ [] ∧ ∀ s ∈ g, s.voice_id = groupVoice g := by
  induction rest with
  | nil =>
    intro cur prev hne hcur g hg
    simp only [groupLoop, List.mem_singleton] at hg
    subst hg
    refine ⟨hne, ?_⟩
    obtain ⟨c, cs, rfl⟩ := List.exists_cons_of_ne_nil hne
    intro s hs
    have h1 := hcur s hs
    have h2 := hcur c (by simp)
    simp [groupVoice, h1, h2]
  | cons seg rest ih =>
    intro cur prev hne hcur g hg
    by_cases h : seg.voice_id = prev.voice_id
    · simp only [groupLoop, h, if_pos] at hg
      refine ih (cur ++ [seg]) seg (by simp) ?_ g hg
      intro s hs
      rcases List.mem_append.mp hs with hs | hs
      · rw [hcur s hs, h]
      · simp only [List.mem_singleton] at hs; rw [hs]
    · simp only [groupLoop, h, if_neg, not_false_iff, List.mem_cons] at hg
      rcases hg with rfl | hg
      · refine ⟨hne, ?_⟩
        obtain ⟨c, cs, rfl⟩ := List.exists_cons_of_ne_nil hne
        intro s hs
        have h1 := hcur s hs
        have h2 := hcur c (by simp)
        simp [groupVoice, h1, h2]
      · exact ih [seg] seg (by simp) (by simp) g hg

theorem groupLoop_chain (rest : List Segment) :
    ∀ (cur : List Segment) (prev : Segment),
      cur ≠ [] → (∀ s ∈ cur, s.voice_id = prev.voice_id) →
      List.Chain' (fun g h => groupVoice g ≠ groupVoice h)
        (groupLoop cur prev rest) := by
  induction rest with
  | nil => intro cur prev _ _; simp [groupLoop]
  | cons seg rest ih =>
    intro cur prev hne hcur
    by_cases h : seg.voice_id = prev.voice_id
    · simp only [groupLoop, h, if_pos]
      refine ih (cur ++ [seg]) seg (by simp) ?_
      intro s hs
      rcases List.mem_append.mp hs with hs | hs
      · rw [hcur s hs, h]
      · simp only [List.mem_singleton] at hs; rw [hs]
    · simp only [groupLoop, h, if_neg, not_false_iff]
      refine List.Chain'.cons' (ih [seg] seg (by simp) (by simp)) ?_
      intro g hg
      obtain ⟨ext, out, hout⟩ := groupLoop_first rest [seg] seg
      rw [hout] at hg
      simp only [List.head?_cons, Option.mem_def, Option.some.injEq] at hg
      subst hg
      obtain ⟨c, cs, rfl⟩ := List.exists_cons_of_ne_nil hne
      have hcv : c.voice_id = prev.voice_id := hcur c (by simp)
      simp [groupVoice, hcv]
      intro hcontra
      exact h hcontra.symm

/-- C3: for every ordered list of segments, the grouping loop of
`process_book` / `stream_audio_from_segments` partitions it into an ordered
list of groups whose concatenation reproduces the input exactly, every group
is non-empty and voice-homogeneous, no two adjacent groups share a
`voice_id`, and the empty input yields zero groups. -/
theorem grouping_partitions_preserving_order (segments : List Segment) :
    (groupSegments segments).flatten = segments ∧
    (∀ g ∈ groupSegments segments,
      g ≠ [] ∧ ∀ s ∈ g, s.voice_id = groupVoice g) ∧
    List.Chain' (fun g h => groupVoice g ≠ groupVoice h)
      (groupSegments segments) ∧
    groupSegments [] = [] := by
  refine ⟨?_, ?_, ?_, rfl⟩
  · cases segments with
    | nil => rfl
    | cons s rest => simpa [groupSegments] using groupLoop_join rest [s] s
  · cases segments with
    | nil => simp [groupSegments]
    | cons s rest =>
      exact groupLoop_homog rest [s] s (by simp) (by simp)
  · cases segments with
    | nil => simp [groupSegments]
    | cons s rest =>
      exact groupLoop_chain rest [s] s (by simp) (by simp)

/-! ## TimingEstimator

`process_book` (audio_reader.py lines 1694-1718): per group, the measured
audio duration `D` is split over the group's segments in proportion to
`len(s["text"])`; `cumulative_time` is the running clock and
`processed_count` the global segment counter. -/

/-- Total character count of a group:
`total_chars = sum(len(s["text"]) for s in group)`. -/
def totalChars (group : List Segment) : Nat :=
  (group.map (fun s => s.text.length)).sum

/-- Per-segment duration:
`(seg_len / total_chars) * duration if total_chars > 0 else 0`. -/
def segDuration (total_chars : Nat) (duration : ℚ) (seg_len : Nat) : ℚ :=
  if total_chars > 0 then ((seg_len : ℚ) / (total_chars : ℚ)) * duration else 0

/-- One timing entry (`timing_info` dict in `process_book`). -/
structure TimingInfo where
  segment_index : Nat
  speaker : String
  text : String
  start_time : ℚ
  duration : ℚ
  end_time : ℚ
deriving DecidableEq

/-- The inner `for seg in group` loop of `process_book`: produces the group's
timing entries and the updated `cumulative_time` and `processed_count`. -/
def groupTimingsLoop (cumulative_time : ℚ) (processed_count : Nat)
    (total_chars : Nat) (duration : ℚ) :
    List Segment → List TimingInfo × ℚ × Nat
  | [] => ([], cumulative_time, processed_count)
  | seg :: rest =>
    let seg_duration := segDuration total_chars duration seg.text.length
    let ti : TimingInfo :=
      { segment_index := processed_count
        speaker := seg.speaker
        text := seg.original_text
        start_time := cumulative_time
        duration := seg_duration
        end_time := cumulative_time + seg_duration }
    let r := groupTimingsLoop (cumulative_time + seg_duration)
      (processed_count + 1) total_chars duration rest
    (ti :: r.1, r.2)

/-- Timing computation for one group with its measured audio duration. -/
def processGroupTimings (cumulative_time : ℚ) (processed_count : Nat)
    (group : List Segment) (duration : ℚ) : List TimingInfo × ℚ × Nat :=
  groupTimingsLoop cumulative_time processed_count (totalChars group)
    duration group

/-- The `for group_idx, group in enumerate(grouped_segments)` loop of
`process_book`, restricted to its timing side effects: each group comes
paired with the measured duration of its synthesized audio. -/
def bookTimingsLoop (cumulative_time : ℚ) (processed_count : Nat) :
    List (List Segment × ℚ) → List TimingInfo × ℚ × Nat
  | [] => ([], cumulative_time, processed_count)
  | (group, d) :: rest =>
    let r := processGroupTimings cumulative_time processed_count group d
    let r' := bookTimingsLoop r.2.1 r.2.2 rest
    (r.1 ++ r'.1, r'.2)

/-- Whole-book timing: `cumulative_time` starts at `0.0` and
`processed_count` at `0`; the second component is the final
`cumulative_time`, written to the timing manifest as `total_duration`. -/
def bookTimings (groups : List (List Segment × ℚ)) : List TimingInfo × ℚ × Nat :=
  bookTimingsLoop 0 0 groups

theorem groupTimingsLoop_durations (group : List Segment) :
    ∀ (c : ℚ) (n T : Nat) (D : ℚ),
      (groupTimingsLoop c n T D group).1.map (fun ti => ti.duration) =
        group.map (fun s => segDuration T D s.text.length) := by
  induction group with
  | nil => intro c n T D; rfl
  | cons seg rest ih =>
    intro c n T D
    simp only [groupTimingsLoop, List.map_cons, List.map, ih]

theorem groupTimingsLoop_end_eq (group : List Segment) :
    ∀ (c : ℚ) (n T : Nat) (D : ℚ),
      ∀ ti ∈ (groupTimingsLoop c n T D group).1,
        ti.end_time = ti.start_time + ti.duration := by
  induction group with
  | nil => intro c n T D ti h; simp [groupTimingsLoop] at h
  | cons seg rest ih =>
    intro c n T D ti h
    simp only [groupTimingsLoop, List.mem_cons] at h
    rcases h with rfl | h
    · rfl
    · exact ih _ _ _ _ ti h

theorem groupTimingsLoop_head_start (group : List Segment) (c : ℚ)
    (n T : Nat) (D : ℚ) :
    ∀ ti ∈ (groupTimingsLoop c n T D group).1.head?, ti.start_time = c := by
  cases group with
  | nil => simp [groupTimingsLoop]
  | cons seg rest => simp [groupTimingsLoop]

theorem groupTimingsLoop_chain (group : List Segment) :
    ∀ (c : ℚ) (n T : Nat) (D : ℚ),
      List.Chain' (fun a b => b.start_time = a.end_time)
        (groupTimingsLoop c n T D group).1 := by
  induction group with
  | nil => intro c n T D; simp [groupTimingsLoop]
  | cons seg rest ih =>
    intro c n T D
    simp only [groupTimingsLoop]
    refine List.Chain'.cons' (ih _ _ _ _) ?_
    intro b hb
    have := groupTimingsLoop_head_start rest
      (c + segDuration T D seg.text.length) (n + 1) T D b hb
    simp [this]

theorem groupTimingsLoop_clock (group : List Segment) :
    ∀ (c : ℚ) (n T : Nat) (D : ℚ),
      (groupTimingsLoop c n T D group).2.1 =
        c + (group.map (fun s => segDuration T D s.text.length)).sum := by
  induction group with
  | nil => intro c n T D; simp [groupTimingsLoop]
  | cons seg rest ih =>
    intro c n T D
    simp only [groupTimingsLoop, ih, List.map_cons, List.sum_cons]
    ring

theorem groupTimingsLoop_count (group : List Segment) :
    ∀ (c : ℚ) (n T : Nat) (D : ℚ),
      (groupTimingsLoop c n T D group).2.2 = n + group.length := by
  induction group with
  | nil => intro c n T D; simp [groupTimingsLoop]
  | cons seg rest ih =>
    intro c n T D
    simp only [groupTimingsLoop, ih, List.length_cons]
    omega

theorem groupTimingsLoop_indices (group : List Segment) :
    ∀ (c : ℚ) (n T : Nat) (D : ℚ),
      (groupTimingsLoop c n T D group).1.map (fun ti => ti.segment_index) =
        List.range' n group.length := by
  induction group with
  | nil => intro c n T D; rfl
  | cons seg rest ih =>
    intro c n T D
    simp only [groupTimingsLoop, List.map_cons, List.length_cons, ih,
      List.range'_succ]

theorem groupTimingsLoop_last_end (group : List Segment) :
    ∀ (c : ℚ) (n T : Nat) (D : ℚ),
      ∀ ti ∈ (groupTimingsLoop c n T D group).1.getLast?,
        ti.end_time = (groupTimingsLoop c n T D group).2.1 := by
  induction group with
  | nil => intro c n T D ti h; simp [groupTimingsLoop] at h
  | cons seg rest ih =>
    intro c n T D ti h
    simp only [groupTimingsLoop] at h ⊢
    cases hr : (groupTimingsLoop (c + segDuration T D seg.text.length)
        (n + 1) T D rest).1 with
    | nil =>
      rw [hr] at h
      simp only [List.getLast?_singleton, Option.mem_def,
        Option.some.injEq] at h
      subst h
      cases rest with
      | nil => rfl
      | cons s' r' => simp [groupTimingsLoop] at hr
    | cons x xs =>
      rw [hr] at h
      rw [List.getLast?_cons_cons] at h
      have := ih (c + segDuration T D seg.text.length) (n + 1) T D ti
      rw [hr] at this
      exact this h

/-- C4: per-group timing apportionment in `process_book`.  For a group with
measured audio duration `D`, segment `i` receives duration
`(len(text_i) / total_chars) * D` (and `0` when `total_chars = 0`), its
`start_time` is the running clock at that point (the first segment starts at
the incoming clock, and each next segment starts where the previous ended),
its `end_time` is `start_time + duration`, and the running clock leaves the
group advanced by the sum of the durations — which is how it carries over to
the next group, since `bookTimingsLoop` feeds it in unchanged. -/
theorem timing_estimator_apportionment (c : ℚ) (n : Nat)
    (group : List Segment) (D : ℚ) :
    (processGroupTimings c n group D).1.map (fun ti => ti.duration) =
      group.map (fun s =>
        if totalChars group > 0 then
          ((s.text.length : ℚ) / (totalChars group : ℚ)) * D
        else 0) ∧
    (∀ ti ∈ (processGroupTimings c n group D).1.head?, ti.start_time = c) ∧
    List.Chain' (fun a b => b.start_time = a.end_time)
      (processGroupTimings c n group D).1 ∧
    (∀ ti ∈ (processGroupTimings c n group D).1,
      ti.end_time = ti.start_time + ti.duration) ∧
    (processGroupTimings c n group D).2.1 =
      c + ((processGroupTimings c n group D).1.map
        (fun ti => ti.duration)).sum ∧
    (∀ rest : List (List Segment × ℚ),
      bookTimingsLoop c n ((group, D) :: rest) =
        ((processGroupTimings c n group D).1 ++
          (bookTimingsLoop (processGroupTimings c n group D).2.1
            (processGroupTimings c n group D).2.2 rest).1,
         (bookTimingsLoop (processGroupTimings c n group D).2.1
            (processGroupTimings c n group D).2.2 rest).2)) := by
  refine ⟨?_, ?_, ?_, ?_, ?_, ?_⟩
  · have := groupTimingsLoop_durations group c n (totalChars group) D
    simpa [processGroupTimings, segDuration] using this
  · exact groupTimingsLoop_head_start group c n (totalChars group) D
  · exact groupTimingsLoop_chain group c n (totalChars group) D
  · exact groupTimingsLoop_end_eq group c n (totalChars group) D
  · show (groupTimingsLoop c n (totalChars group) D group).2.1 = _
    rw [groupTimingsLoop_clock group c n (totalChars group) D]
    congr 1
    have hd : (processGroupTimings c n group D).1 =
        (groupTimingsLoop c n (totalChars group) D group).1 := rfl
    rw [hd, groupTimingsLoop_durations group c n (totalChars group) D]
  · intro rest; rfl

theorem segDuration_nonneg (T : Nat) (D : ℚ) (L : Nat) (hD : 0 ≤ D) :
    0 ≤ segDuration T D L := by
  unfold segDuration
  split
  · positivity
  · exact le_refl 0

theorem groupTimingsLoop_length (group : List Segment) :
    ∀ (c : ℚ) (n T : Nat) (D : ℚ),
      (groupTimingsLoop c n T D group).1.length = group.length := by
  induction group with
  | nil => intro c n T D; rfl
  | cons seg rest ih =>
    intro c n T D
    simp only [groupTimingsLoop, List.length_cons, ih]

theorem bookTimingsLoop_end_eq (groups : List (List Segment × ℚ)) :
    ∀ (c : ℚ) (n : Nat),
      ∀ ti ∈ (bookTimingsLoop c n groups).1,
        ti.end_time = ti.start_time + ti.duration := by
  induction groups with
  | nil => intro c n ti h; simp [bookTimingsLoop] at h
  | cons p rest ih =>
    intro c n ti h
    obtain ⟨group, d⟩ := p
    simp only [bookTimingsLoop, List.mem_append] at h
    rcases h with h | h
    · exact groupTimingsLoop_end_eq group c n (totalChars group) d ti h
    · exact ih _ _ ti h

theorem bookTimingsLoop_dur_nonneg (groups : List (List Segment × ℚ)) :
    ∀ (c : ℚ) (n : Nat), (∀ p ∈ groups, 0 ≤ p.2) →
      ∀ ti ∈ (bookTimingsLoop c n groups).1, 0 ≤ ti.duration := by
  induction groups with
  | nil => intro c n _ ti h; simp [bookTimingsLoop] at h
  | cons p rest ih =>
    intro c n hD ti h
    obtain ⟨group, d⟩ := p
    simp only [bookTimingsLoop, List.mem_append] at h
    rcases h with h | h
    · have hdur : ti.duration ∈ (groupTimingsLoop c n (totalChars group) d
          group).1.map (fun ti => ti.duration) := List.mem_map_of_mem _ h
      rw [groupTimingsLoop_durations] at hdur
      obtain ⟨s, _, hs⟩ := List.mem_map.mp hdur
      rw [← hs]
      exact segDuration_nonneg _ _ _ (hD (group, d) (by simp))
    · exact ih _ _ (fun p hp => hD p (by simp [hp])) ti h

theorem bookTimingsLoop_nil_clock (groups : List (List Segment × ℚ)) :
    ∀ (c : ℚ) (n : Nat), (bookTimingsLoop c n groups).1 = [] →
      (bookTimingsLoop c n groups).2.1 = c := by
  induction groups with
  | nil => intro c n _; rfl
  | cons p rest ih =>
    intro c n h
    obtain ⟨group, d⟩ := p
    simp only [bookTimingsLoop, List.append_eq_nil] at h ⊢
    obtain ⟨h1, h2⟩ := h
    cases group with
    | nil =>
      simp only [processGroupTimings, groupTimingsLoop]
      exact ih _ _ h2
    | cons s r => simp [processGroupTimings, groupTimingsLoop] at h1

theorem bookTimingsLoop_head_start (groups : List (List Segment × ℚ)) :
    ∀ (c : ℚ) (n : Nat),
      ∀ ti ∈ (bookTimingsLoop c n groups).1.head?, ti.start_time = c := by
  induction groups with
  | nil => intro c n ti h; simp [bookTimingsLoop] at h
  | cons p rest ih =>
    intro c n ti h
    obtain ⟨group, d⟩ := p
    simp only [bookTimingsLoop, List.head?_append] at h
    cases group with
    | nil =>
      simp only [processGroupTimings, groupTimingsLoop, List.head?_nil,
        Option.none_or] at h ⊢
      exact ih _ _ ti h
    | cons s r =>
      simp only [processGroupTimings, groupTimingsLoop, List.head?_cons,
        Option.or, Option.mem_def, Option.some.injEq] at h
      subst h
      rfl

theorem bookTimingsLoop_last_end (groups : List (List Segment × ℚ)) :
    ∀ (c : ℚ) (n : Nat),
      ∀ ti ∈ (bookTimingsLoop c n groups).1.getLast?,
        ti.end_time = (bookTimingsLoop c n groups).2.1 := by
  induction groups with
  | nil => intro c n ti h; simp [bookTimingsLoop] at h
  | cons p rest ih =>
    intro c n ti h
    obtain ⟨group, d⟩ := p
    simp only [bookTimingsLoop, List.getLast?_append] at h ⊢
    cases hr : (bookTimingsLoop (processGroupTimings c n group d).2.1
        (processGroupTimings c n group d).2.2 rest).1 with
    | nil =>
      rw [hr] at h
      simp only [List.getLast?_nil, Option.none_or] at h
      have hclock := bookTimingsLoop_nil_clock rest
        (processGroupTimings c n group d).2.1
        (processGroupTimings c n group d).2.2 hr
      rw [hclock]
      exact groupTimingsLoop_last_end group c n (totalChars group) d ti h
    | cons x xs =>
      rw [hr] at h
      have hne : (bookTimingsLoop (processGroupTimings c n group d).2.1
          (processGroupTimings c n group d).2.2 rest).1.getLast?.isSome := by
        rw [hr]; simp [List.getLast?_cons]
      have := ih (processGroupTimings c n group d).2.1
        (processGroupTimings c n group d).2.2 ti
      rw [hr] at this
      apply this
      rcases hl : (x :: xs).getLast? with _ | y
      · simp [List.getLast?_cons] at hl
      · rw [hl] at h
        simp only [Option.or] at h
        exact hl.symm ▸ h

theorem bookTimingsLoop_chain (groups : List (List Segment × ℚ)) :
    ∀ (c : ℚ) (n : Nat),
      List.Chain' (fun a b => a.end_time = b.start_time)
        (bookTimingsLoop c n groups).1 := by
  induction groups with
  | nil => intro c n; simp [bookTimingsLoop]
  | cons p rest ih =>
    intro c n
    obtain ⟨group, d⟩ := p
    simp only [bookTimingsLoop]
    rw [List.chain'_append]
    refine ⟨?_, ih _ _, ?_⟩
    · exact (groupTimingsLoop_chain group c n (totalChars group) d).imp
        (fun a b h => h.symm)
    · intro a ha b hb
      have ha' := groupTimingsLoop_last_end group c n (totalChars group) d a ha
      have hb' := bookTimingsLoop_head_start rest
        (processGroupTimings c n group d).2.1
        (processGroupTimings c n group d).2.2 b hb
      rw [ha', hb']
      rfl

theorem bookTimingsLoop_indices (groups : List (List Segment × ℚ)) :
    ∀ (c : ℚ) (n : Nat),
      (bookTimingsLoop c n groups).1.map (fun ti => ti.segment_index) =
        List.range' n (bookTimingsLoop c n groups).1.length := by
  induction groups with
  | nil => intro c n; rfl
  | cons p rest ih =>
    intro c n
    obtain ⟨group, d⟩ := p
    simp only [bookTimingsLoop, List.map_append, List.length_append,
      processGroupTimings]
    rw [groupTimingsLoop_indices group c n (totalChars group) d, ih,
      groupTimingsLoop_count group c n (totalChars group) d,
      groupTimingsLoop_length group c n (totalChars group) d]
    have := List.range'_append n group.length
      (bookTimingsLoop (groupTimingsLoop c n (totalChars group) d group).2.1
        (n + group.length) rest).1.length 1
    simp only [one_mul] at this
    rw [this, Nat.add_comm]

/-- From contiguity of intervals and non-negative lengths, start times are
non-decreasing along the list. -/
theorem chain_start_mono (l : List TimingInfo)
    (h1 : ∀ ti ∈ l, ti.start_time ≤ ti.end_time)
    (h2 : List.Chain' (fun a b => a.end_time = b.start_time) l) :
    List.Chain' (fun a b => a.start_time ≤ b.start_time) l := by
  induction l with
  | nil => simp
  | cons a rest ih =>
    rw [List.chain'_cons'] at h2 ⊢
    refine ⟨?_, ih (fun ti h => h1 ti (by simp [h])) h2.2⟩
    intro b hb
    have := h2.1 b hb
    have ha := h1 a (by simp)
    rw [← this]
    exact ha

/-- C5: the timing list produced by the pipeline's book loop satisfies the
book-wide invariant, provided each group's measured audio duration is
non-negative (it is a sample count divided by the sample rate): records
carry `segment_index` `0, 1, 2, ...` in order, `start_time` is
non-decreasing, the intervals are contiguous (each record's `end_time` equals
the next record's `start_time`, so they are also non-overlapping), and the
last record's `end_time` equals the final `cumulative_time`, which
`process_book` records as the book's `total_duration`. -/
theorem book_timing_invariant (groups : List (List Segment × ℚ))
    (hD : ∀ p ∈ groups, 0 ≤ p.2) :
    (bookTimings groups).1.map (fun ti => ti.segment_index) =
      List.range (bookTimings groups).1.length ∧
    List.Chain' (fun a b => a.start_time ≤ b.start_time)
      (bookTimings groups).1 ∧
    (∀ ti ∈ (bookTimings groups).1, ti.start_time ≤ ti.end_time) ∧
    List.Chain' (fun a b => a.end_time = b.start_time)
      (bookTimings groups).1 ∧
    (∀ ti ∈ (bookTimings groups).1.getLast?,
      ti.end_time = (bookTimings groups).2.1) := by
  have hse : ∀ ti ∈ (bookTimings groups).1, ti.start_time ≤ ti.end_time := by
    intro ti h
    have he := bookTimingsLoop_end_eq groups 0 0 ti h
    have hd := bookTimingsLoop_dur_nonneg groups 0 0 hD ti h
    rw [he]
    linarith
  refine ⟨?_, ?_, hse, ?_, ?_⟩
  · rw [show (bookTimings groups).1 = (bookTimingsLoop 0 0 groups).1 from rfl,
      bookTimingsLoop_indices groups 0 0, List.range_eq_range']
  · exact chain_start_mono _ hse (bookTimingsLoop_chain groups 0 0)
  · exact bookTimingsLoop_chain groups 0 0
  · exact bookTimingsLoop_last_end groups 0 0

/-- A concrete narrator segment used by the closed-instance theorems. -/
def segAlice : Segment :=
  { speaker := "narrator", original_text := "Once", text := "Once",
    voice_id := "voiceA", emotion := "neutral", has_laughter := false,
    scene_id := "scene_1", language := none }

/-- A concrete character segment with a different voice. -/
def segWolf : Segment :=
  { speaker := "wolf", original_text := "Grr!", text := "Grr!",
    voice_id := "voiceB", emotion := "angry", has_laughter := false,
    scene_id := "scene_1", language := none }

theorem book_timing_invariant_witness :
    (bookTimings [([segAlice], (2 : ℚ))]).1.map (fun ti => ti.segment_index) =
      List.range (bookTimings [([segAlice], (2 : ℚ))]).1.length ∧
    List.Chain' (fun a b => a.start_time ≤ b.start_time)
      (bookTimings [([segAlice], (2 : ℚ))]).1 ∧
    (∀ ti ∈ (bookTimings [([segAlice], (2 : ℚ))]).1,
      ti.start_time ≤ ti.end_time) ∧
    List.Chain' (fun a b => a.end_time = b.start_time)
      (bookTimings [([segAlice], (2 : ℚ))]).1 ∧
    (∀ ti ∈ (bookTimings [([segAlice], (2 : ℚ))]).1.getLast?,
      ti.end_time = (bookTimings [([segAlice], (2 : ℚ))]).2.1) :=
  book_timing_invariant [([segAlice], (2 : ℚ))] (by norm_num)

/-! ## TimingService (timing_service.py)

The MongoDB store is modelled as lists of documents in insertion order.
The unique index `(book_id, segment_index)` (`idx_timings_book_segment`,
`_create_indexes`) makes `insert_many` fail on a duplicate key; Mongo's
ordered `insert_many` inserts documents one at a time and raises on the
first duplicate.  `find_one` returns the first matching document in natural
order; `find(...).sort("segment_index")` sorts the matching documents. -/

/-- A document of the `segment_timings` collection, exactly the `doc` dict
built in `import_timings`. -/
structure TimingDoc where
  book_id : String
  segment_index : Nat
  speaker : String
  text : String
  start_time : ℚ
  duration : ℚ
  end_time : ℚ
deriving DecidableEq

/-- A document of the `books` collection (only the fields the service
touches). -/
structure BookDoc where
  book_id : String
  duration : ℚ
deriving DecidableEq

/-- The two collections the service uses. -/
structure DBState where
  segment_timings : List TimingDoc
  books : List BookDoc
deriving DecidableEq

/-- One entry of the `segments` array of a `segment_timings.json` file, as
`import_timings` reads it: `speaker` and `text` are read with
`segment.get(..., default)`, so they may be absent. -/
structure SegTiming where
  segment_index : Nat
  speaker : Option String
  text : Option String
  start_time : ℚ
  duration : ℚ
  end_time : ℚ
deriving DecidableEq

/-- The parsed `segment_timings.json` content:
`timing_data.get('segments', [])` and `timing_data.get('total_duration', 0)`
(defaults folded into the record). -/
structure TimingData where
  segments : List SegTiming
  total_duration : ℚ
deriving DecidableEq

/-- The `doc` dict `import_timings` builds from one JSON segment entry. -/
def toTimingDoc (book_id : String) (s : SegTiming) : TimingDoc :=
  { book_id := book_id
    segment_index := s.segment_index
    speaker := s.speaker.getD "unknown"
    text := s.text.getD ""
    start_time := s.start_time
    duration := s.duration
    end_time := s.end_time }

/-- The unique index `(book_id, segment_index)`: does the collection already
hold a document with this key? -/
def hasTimingKey (coll : List TimingDoc) (book_id : String)
    (segment_index : Nat) : Bool :=
  coll.any (fun d => d.book_id == book_id && d.segment_index == segment_index)

/-- Mongo's ordered `insert_many` under the unique
`(book_id, segment_index)` index: append documents one at a time; a
duplicate key raises (modelled as `.error`). -/
def insertManyTimings (coll : List TimingDoc) :
    List TimingDoc → Except String (List TimingDoc)
  | [] => .ok coll
  | d :: ds =>
    if hasTimingKey coll d.book_id d.segment_index then
      .error "E11000 duplicate key error"
    else
      insertManyTimings (coll ++ [d]) ds

/-- Models `update_one({"book_id": ...}, {"$set": {"duration": d}})` on the
books collection: updates the first matching document, or none. -/
def updateBookDuration (books : List BookDoc) (book_id : String) (d : ℚ) :
    List BookDoc :=
  match books with
  | [] => []
  | b :: rest =>
    if b.book_id == book_id then { b with duration := d } :: rest
    else b :: updateBookDuration rest book_id d

/-- Models `TimingService.import_timings` (timing_service.py lines 100-157), after
the JSON file is parsed into `timing_data`: delete the book's old timing
documents, bulk-insert the new ones, update the book's `duration` when
`total_duration > 0`, and return the number of documents imported.  A
raised exception (duplicate key on insert) propagates as `.error`. -/
def import_timings (st : DBState) (timing_data : TimingData)
    (book_id : String) : Except String (Nat × DBState) :=
  let segments := timing_data.segments
  let total_duration := timing_data.total_duration
  let afterDelete := st.segment_timings.filter (fun d => !(d.book_id == book_id))
  let timing_docs := segments.map (toTimingDoc book_id)
  match insertManyTimings afterDelete timing_docs with
  | .error e => .error e
  | .ok coll =>
    let books :=
      if 0 < total_duration then updateBookDuration st.books book_id total_duration
      else st.books
    .ok (timing_docs.length, { segment_timings := coll, books := books })

/-- Sort key used by `find(...).sort("segment_index", ASCENDING)`. -/
def bySegmentIndex (a b : TimingDoc) : Prop :=
  a.segment_index ≤ b.segment_index

instance : DecidableRel bySegmentIndex :=
  fun a b => Nat.decLe a.segment_index b.segment_index

instance : IsTotal TimingDoc bySegmentIndex :=
  ⟨fun a b => Nat.le_total a.segment_index b.segment_index⟩

instance : IsTrans TimingDoc bySegmentIndex :=
  ⟨fun _ _ _ h1 h2 => Nat.le_trans h1 h2⟩

/-- Models `TimingService.get_all_timings` (lines 183-198): all timing documents of
a book, sorted by `segment_index`. -/
def get_all_timings (st : DBState) (book_id : String) : List TimingDoc :=
  List.insertionSort bySegmentIndex
    (st.segment_timings.filter (fun d => d.book_id == book_id))

/-- Models `TimingService.find_segment_at_time` (lines 200-212): `find_one` with
`book_id`, `start_time <= timestamp` (`$lte`) and `end_time > timestamp`
(`$gt`); the first matching document in natural order, or `None`. -/
def find_segment_at_time (st : DBState) (book_id : String) (timestamp : ℚ) :
    Option TimingDoc :=
  st.segment_timings.find? (fun d =>
    d.book_id == book_id && decide (d.start_time ≤ timestamp) &&
      decide (timestamp < d.end_time))

/-- The timing documents of one book, in natural (insertion) order. -/
def bookRecords (st : DBState) (book_id : String) : List TimingDoc :=
  st.segment_timings.filter (fun d => d.book_id == book_id)

/-- The book-wide invariant the pipeline establishes (cf. the
`segment_timings.json` writer in `process_book`): every interval is
well-oriented and each record's `end_time` is the next record's
`start_time`. -/
def WellFormedBook (l : List TimingDoc) : Prop :=
  (∀ r ∈ l, r.start_time ≤ r.end_time) ∧
  List.Chain' (fun a b => a.end_time = b.start_time) l

theorem find_segment_eq_filtered (bid : String) (t : ℚ) :
    ∀ l : List TimingDoc,
      l.find? (fun d => d.book_id == bid && decide (d.start_time ≤ t) &&
          decide (t < d.end_time)) =
        (l.filter (fun d => d.book_id == bid)).find?
          (fun d => decide (d.start_time ≤ t) && decide (t < d.end_time)) := by
  intro l
  induction l with
  | nil => rfl
  | cons d rest ih =>
    by_cases hb : d.book_id == bid
    · simp only [List.find?_cons, List.filter_cons, hb, Bool.true_and, if_true]
      cases hp : (decide (d.start_time ≤ t) && decide (t < d.end_time)) with
      | true => simp [List.find?_cons, hp]
      | false => simp [List.find?_cons, hp, ih]
    · simp only [Bool.not_eq_true] at hb
      simp [List.find?_cons, List.filter_cons, hb, ih]

theorem wf_head_start (l : List TimingDoc) (h : WellFormedBook l) :
    ∀ h0 ∈ l.head?, ∀ r ∈ l, h0.start_time ≤ r.start_time := by
  induction l with
  | nil => simp
  | cons a rest ih =>
    intro h0 hh0 r hr
    simp only [List.head?_cons, Option.mem_def, Option.some.injEq] at hh0
    subst hh0
    rcases List.mem_cons.mp hr with rfl | hr
    · exact le_refl _
    · cases rest with
      | nil => simp at hr
      | cons b rest' =>
        have hwf' : WellFormedBook (b :: rest') :=
          ⟨fun x hx => h.1 x (by simp [hx]), (List.chain'_cons.mp h.2).2⟩
        have hab : a.end_time = b.start_time := (List.chain'_cons.mp h.2).1
        have hb := ih hwf' b (by simp) r hr
        have ha := h.1 a (by simp)
        calc a.start_time ≤ a.end_time := ha
          _ = b.start_time := hab
          _ ≤ r.start_time := hb

theorem wf_last_end (l : List TimingDoc) (h : WellFormedBook l) :
    ∀ lN ∈ l.getLast?, ∀ r ∈ l, r.end_time ≤ lN.end_time := by
  induction l with
  | nil => simp
  | cons a rest ih =>
    intro lN hlN r hr
    cases rest with
    | nil =>
      simp only [List.getLast?_singleton, Option.mem_def,
        Option.some.injEq] at hlN
      subst hlN
      simp only [List.mem_singleton] at hr
      subst hr
      exact le_refl _
    | cons b rest' =>
      rw [List.getLast?_cons_cons] at hlN
      have hwf' : WellFormedBook (b :: rest') :=
        ⟨fun x hx => h.1 x (by simp [hx]), (List.chain'_cons.mp h.2).2⟩
      have hab : a.end_time = b.start_time := (List.chain'_cons.mp h.2).1
      rcases List.mem_cons.mp hr with rfl | hr
      · have hb := ih hwf' lN hlN b (by simp)
        have hbse := hwf'.1 b (by simp)
        calc r.end_time = b.start_time := hab
          _ ≤ b.end_time := hbse
          _ ≤ lN.end_time := hb
      · exact ih hwf' lN hlN r hr

theorem wf_covering (l : List TimingDoc) (h : WellFormedBook l) (t : ℚ) :
    ∀ h0 ∈ l.head?, ∀ lN ∈ l.getLast?,
      h0.start_time ≤ t → t < lN.end_time →
      ∃ r ∈ l, r.start_time ≤ t ∧ t < r.end_time := by
  induction l with
  | nil => simp
  | cons a rest ih =>
    intro h0 hh0 lN hlN hts htl
    simp only [List.head?_cons, Option.mem_def, Option.some.injEq] at hh0
    subst hh0
    cases rest with
    | nil =>
      simp only [List.getLast?_singleton, Option.mem_def,
        Option.some.injEq] at hlN
      subst hlN
      exact ⟨a, by simp, hts, htl⟩
    | cons b rest' =>
      rw [List.getLast?_cons_cons] at hlN
      by_cases hae : t < a.end_time
      · exact ⟨a, by simp, hts, hae⟩
      · push_neg at hae
        have hwf' : WellFormedBook (b :: rest') :=
          ⟨fun x hx => h.1 x (by simp [hx]), (List.chain'_cons.mp h.2).2⟩
        have hab : a.end_time = b.start_time := (List.chain'_cons.mp h.2).1
        obtain ⟨r, hrm, hr1, hr2⟩ := ih hwf' b (by simp) lN hlN
          (by rw [← hab]; exact hae) htl
        exact ⟨r, by simp [hrm], hr1, hr2⟩

theorem wf_pairwise (l : List TimingDoc) (h : WellFormedBook l) :
    l.Pairwise (fun a b => a.end_time ≤ b.start_time) := by
  induction l with
  | nil => simp
  | cons a rest ih =>
    have hwf' : WellFormedBook rest :=
      ⟨fun x hx => h.1 x (by simp [hx]), h.2.tail⟩
    refine List.Pairwise.cons ?_ (ih hwf')
    intro b hb
    cases rest with
    | nil => simp at hb
    | cons c rest' =>
      have hac : a.end_time = c.start_time := (List.chain'_cons.mp h.2).1
      have := wf_head_start (c :: rest') hwf' c (by simp) b hb
      rw [hac]
      exact this

/-- C2: under the book-wide invariant, `find_segment_at_time` returns the
unique record whose half-open interval `[start_time, end_time)` contains the
timestamp, and returns `None` (the query is total, never an exception)
exactly when the book has no records, or the timestamp is before the first
record's `start_time`, or at/after the last record's `end_time`. -/
theorem find_segment_at_time_spec (st : DBState) (book_id : String) (t : ℚ)
    (hwf : WellFormedBook (bookRecords st book_id)) :
    (∀ r, find_segment_at_time st book_id t = some r →
      r ∈ bookRecords st book_id ∧ r.start_time ≤ t ∧ t < r.end_time ∧
      ∀ r' ∈ bookRecords st book_id,
        r'.start_time ≤ t → t < r'.end_time → r' = r) ∧
    (find_segment_at_time st book_id t = none ↔
      (bookRecords st book_id = [] ∨
       (∃ h0 ∈ (bookRecords st book_id).head?, t < h0.start_time) ∨
       (∃ lN ∈ (bookRecords st book_id).getLast?, lN.end_time ≤ t))) := by
  have hfind : find_segment_at_time st book_id t =
      (bookRecords st book_id).find?
        (fun d => decide (d.start_time ≤ t) && decide (t < d.end_time)) :=
    find_segment_eq_filtered book_id t st.segment_timings
  constructor
  · intro r hr
    rw [hfind] at hr
    have hmem : r ∈ bookRecords st book_id := List.mem_of_find?_eq_some hr
    have hpred := List.find?_some hr
    simp only [Bool.and_eq_true, decide_eq_true_eq] at hpred
    refine ⟨hmem, hpred.1, hpred.2, ?_⟩
    intro r' hr' h1 h2
    by_contra hne
    have hpw : (bookRecords st book_id).Pairwise
        (fun a b => a.end_time ≤ b.start_time ∨ b.end_time ≤ a.start_time) :=
      (wf_pairwise _ hwf).imp (fun h => Or.inl h)
    have hsymm : Symmetric
        (fun a b : TimingDoc =>
          a.end_time ≤ b.start_time ∨ b.end_time ≤ a.start_time) :=
      fun a b h => h.elim Or.inr Or.inl
    have := hpw.forall hsymm hr' hmem hne
    rcases this with hcase | hcase
    · exact absurd (lt_of_lt_of_le h2 (le_trans hcase hpred.1)) (lt_irrefl t)
    · exact absurd (lt_of_lt_of_le hpred.2 (le_trans hcase h1)) (lt_irrefl t)
  · rw [hfind, List.find?_eq_none]
    constructor
    · intro hnone
      by_cases hl : bookRecords st book_id = []
      · exact Or.inl hl
      · obtain ⟨h0, hh0⟩ := Option.ne_none_iff_exists'.mp
          (mt List.head?_eq_none_iff.mp hl)
        obtain ⟨lN, hlN⟩ := Option.ne_none_iff_exists'.mp
          (mt List.getLast?_eq_none_iff.mp hl)
        by_cases ht0 : t < h0.start_time
        · exact Or.inr (Or.inl ⟨h0, by rw [hh0]; rfl, ht0⟩)
        · by_cases htl : lN.end_time ≤ t
          · exact Or.inr (Or.inr ⟨lN, by rw [hlN]; rfl, htl⟩)
          · push_neg at ht0 htl
            obtain ⟨r, hrm, hr1, hr2⟩ := wf_covering _ hwf t h0
              (by rw [hh0]; rfl) lN (by rw [hlN]; rfl) ht0 htl
            have := hnone r hrm
            simp only [Bool.and_eq_true, decide_eq_true_eq, not_and] at this
            exact absurd hr2 (this hr1)
    · intro hdisj x hx
      simp only [Bool.and_eq_true, decide_eq_true_eq, not_and]
      intro hx1 hx2
      rcases hdisj with hl | ⟨h0, hh0, ht0⟩ | ⟨lN, hlN, htl⟩
      · rw [hl] at hx; simp at hx
      · have := wf_head_start _ hwf h0 hh0 x hx
        exact absurd (lt_of_lt_of_le ht0 (le_trans this hx1)) (lt_irrefl t)
      · have := wf_last_end _ hwf lN hlN x hx
        exact absurd (lt_of_lt_of_le hx2 (le_trans this htl)) (lt_irrefl t)

/-- The spec's worked example of a timing store: two contiguous records for
book `"pigs"`, covering `[0,5)` and `[5,8)`. -/
def docPigs0 : TimingDoc :=
  { book_id := "pigs", segment_index := 0, speaker := "narrator",
    text := "Once upon a time", start_time := 0, duration := 5, end_time := 5 }

/-- Second record of the example store. -/
def docPigs1 : TimingDoc :=
  { book_id := "pigs", segment_index := 1, speaker := "wolf",
    text := "I will huff and puff", start_time := 5, duration := 3,
    end_time := 8 }

/-- The example database: the two `"pigs"` timing records and one book
document. -/
def dbPigs : DBState :=
  { segment_timings := [docPigs0, docPigs1]
    books := [{ book_id := "pigs", duration := 8 }] }

theorem find_segment_at_time_spec_witness :
    (∀ r, find_segment_at_time dbPigs "pigs" 6 = some r →
      r ∈ bookRecords dbPigs "pigs" ∧ r.start_time ≤ 6 ∧ 6 < r.end_time ∧
      ∀ r' ∈ bookRecords dbPigs "pigs",
        r'.start_time ≤ 6 → 6 < r'.end_time → r' = r) ∧
    (find_segment_at_time dbPigs "pigs" 6 = none ↔
      (bookRecords dbPigs "pigs" = [] ∨
       (∃ h0 ∈ (bookRecords dbPigs "pigs").head?, 6 < h0.start_time) ∨
       (∃ lN ∈ (bookRecords dbPigs "pigs").getLast?, lN.end_time ≤ 6))) :=
  find_segment_at_time_spec dbPigs "pigs" 6 (by
    unfold WellFormedBook
    have h : bookRecords dbPigs "pigs" = [docPigs0, docPigs1] := by decide
    rw [h, List.chain'_cons]
    exact ⟨by decide, by decide, List.chain'_singleton _⟩)

theorem insertManyTimings_append (docs : List TimingDoc) :
    ∀ coll : List TimingDoc,
      (∀ d ∈ docs, hasTimingKey coll d.book_id d.segment_index = false) →
      (docs.map (fun d => (d.book_id, d.segment_index))).Nodup →
      insertManyTimings coll docs = .ok (coll ++ docs) := by
  induction docs with
  | nil => intro coll _ _; simp [insertManyTimings]
  | cons d ds ih =>
    intro coll hclash hnodup
    have hd := hclash d (by simp)
    have hcons : (d.book_id, d.segment_index) ∉
        ds.map (fun d => (d.book_id, d.segment_index)) ∧
        (ds.map (fun d => (d.book_id, d.segment_index))).Nodup := by
      rw [List.map_cons, List.nodup_cons] at hnodup; exact hnodup
    simp only [insertManyTimings, hd, Bool.false_eq_true, if_false]
    have hih := ih (coll ++ [d]) ?_ hcons.2
    · rw [hih, List.append_assoc]
      rfl
    · intro d' hd'
      unfold hasTimingKey
      rw [List.any_append]
      have h1 : coll.any (fun e => e.book_id == d'.book_id &&
          e.segment_index == d'.segment_index) = false :=
        hclash d' (by simp [hd'])
      have hkey := hcons.1
      have h2 : (d.book_id == d'.book_id &&
          d.segment_index == d'.segment_index) = false := by
        by_contra hcon
        simp only [Bool.not_eq_false, Bool.and_eq_true, beq_iff_eq] at hcon
        exact hkey (by
          refine List.mem_map.mpr ⟨d', hd', ?_⟩
          rw [hcon.1, hcon.2])
      simp [h1, h2]

theorem hasTimingKey_filter_out (l : List TimingDoc) (bid : String)
    (idx : Nat) :
    hasTimingKey (l.filter (fun d => !(d.book_id == bid))) bid idx = false := by
  unfold hasTimingKey
  rw [List.any_eq_false]
  intro e he
  have := (List.mem_filter.mp he).2
  simp only [Bool.not_eq_true'] at this
  simp [this]

theorem filter_out_idempotent (l : List TimingDoc) (bid : String) :
    (l.filter (fun d => !(d.book_id == bid))).filter
      (fun d => !(d.book_id == bid)) =
    l.filter (fun d => !(d.book_id == bid)) := by
  apply List.filter_eq_self.mpr
  intro a ha
  exact (List.mem_filter.mp ha).2

theorem toTimingDoc_book (bid : String) (s : SegTiming) :
    (toTimingDoc bid s).book_id = bid := rfl

theorem filter_out_mapped (bid : String) (segs : List SegTiming) :
    (segs.map (toTimingDoc bid)).filter (fun d => !(d.book_id == bid)) = [] := by
  rw [List.filter_eq_nil_iff]
  intro a ha
  obtain ⟨s, _, rfl⟩ := List.mem_map.mp ha
  simp [toTimingDoc_book]

theorem filter_in_mapped (bid : String) (segs : List SegTiming) :
    (segs.map (toTimingDoc bid)).filter (fun d => d.book_id == bid) =
      segs.map (toTimingDoc bid) := by
  apply List.filter_eq_self.mpr
  intro a ha
  obtain ⟨s, _, rfl⟩ := List.mem_map.mp ha
  simp [toTimingDoc_book]

theorem filter_in_of_filter_out (l : List TimingDoc) (bid : String) :
    (l.filter (fun d => !(d.book_id == bid))).filter
      (fun d => d.book_id == bid) = [] := by
  rw [List.filter_eq_nil_iff]
  intro a ha
  have := (List.mem_filter.mp ha).2
  simp only [Bool.not_eq_true'] at this
  simp [this]

theorem mapped_keys_nodup (bid : String) (segs : List SegTiming)
    (h : (segs.map (fun s => s.segment_index)).Nodup) :
    ((segs.map (toTimingDoc bid)).map
      (fun d => (d.book_id, d.segment_index))).Nodup := by
  rw [List.map_map]
  have : ((fun d : TimingDoc => (d.book_id, d.segment_index)) ∘ toTimingDoc bid) =
      (fun i => (bid, i)) ∘ (fun s : SegTiming => s.segment_index) := by
    funext s; rfl
  rw [this, ← List.map_map]
  exact h.map (fun a b hab => by simpa using hab)

/-- C7: importing one record set and then another for the same book leaves
exactly the second set's records for that book (prior records are removed
before new ones are written), and listing the book afterwards returns a
permutation of the imported documents sorted by `segment_index`, whatever
the input order was.  The `Nodup` hypotheses say each file's
`segment_index` values are distinct, which the unique
`(book_id, segment_index)` index enforces on insert. -/
theorem import_replace_roundtrip (st : DBState) (book_id : String)
    (td1 td2 : TimingData)
    (h1 : (td1.segments.map (fun s => s.segment_index)).Nodup)
    (h2 : (td2.segments.map (fun s => s.segment_index)).Nodup) :
    ∃ st1 st2 : DBState,
      import_timings st td1 book_id = .ok (td1.segments.length, st1) ∧
      import_timings st1 td2 book_id = .ok (td2.segments.length, st2) ∧
      bookRecords st2 book_id = td2.segments.map (toTimingDoc book_id) ∧
      (get_all_timings st2 book_id).Perm
        (td2.segments.map (toTimingDoc book_id)) ∧
      List.Sorted bySegmentIndex (get_all_timings st2 book_id) := by
  have hclash : ∀ (base : List TimingDoc) (segs : List SegTiming),
      ∀ d ∈ segs.map (toTimingDoc book_id),
        hasTimingKey (base.filter (fun d => !(d.book_id == book_id)))
          d.book_id d.segment_index = false := by
    intro base segs d hd
    obtain ⟨s, _, rfl⟩ := List.mem_map.mp hd
    rw [toTimingDoc_book]
    exact hasTimingKey_filter_out base book_id _
  have hins1 := insertManyTimings_append (td1.segments.map (toTimingDoc book_id))
    (st.segment_timings.filter (fun d => !(d.book_id == book_id)))
    (hclash st.segment_timings td1.segments)
    (mapped_keys_nodup book_id td1.segments h1)
  have hins2 := insertManyTimings_append (td2.segments.map (toTimingDoc book_id))
    (st.segment_timings.filter (fun d => !(d.book_id == book_id)))
    (hclash st.segment_timings td2.segments)
    (mapped_keys_nodup book_id td2.segments h2)
  have him1 : import_timings st td1 book_id = .ok (td1.segments.length,
      { segment_timings :=
          st.segment_timings.filter (fun d => !(d.book_id == book_id)) ++
            td1.segments.map (toTimingDoc book_id)
        books :=
          if 0 < td1.total_duration then
            updateBookDuration st.books book_id td1.total_duration
          else st.books }) := by
    simp [import_timings, hins1]
  have him2 : import_timings
      { segment_timings :=
          st.segment_timings.filter (fun d => !(d.book_id == book_id)) ++
            td1.segments.map (toTimingDoc book_id)
        books :=
          if 0 < td1.total_duration then
            updateBookDuration st.books book_id td1.total_duration
          else st.books } td2 book_id = .ok (td2.segments.length,
      { segment_timings :=
          st.segment_timings.filter (fun d => !(d.book_id == book_id)) ++
            td2.segments.map (toTimingDoc book_id)
        books :=
          if 0 < td2.total_duration then
            updateBookDuration
              (if 0 < td1.total_duration then
                updateBookDuration st.books book_id td1.total_duration
              else st.books) book_id td2.total_duration
          else
            (if 0 < td1.total_duration then
              updateBookDuration st.books book_id td1.total_duration
            else st.books) }) := by
    simp only [import_timings, List.filter_append, filter_out_idempotent,
      filter_out_mapped, List.append_nil]
    rw [hins2]
    simp [List.length_map]
  have hrec : ∀ segs : List SegTiming,
      ((st.segment_timings.filter (fun d => !(d.book_id == book_id)) ++
        segs.map (toTimingDoc book_id)).filter
          (fun d => d.book_id == book_id)) =
        segs.map (toTimingDoc book_id) := by
    intro segs
    rw [List.filter_append, filter_in_of_filter_out, filter_in_mapped,
      List.nil_append]
  refine ⟨_, _, him1, him2, ?_, ?_, ?_⟩
  · show (_ ++ _ : List TimingDoc).filter _ = _
    exact hrec td2.segments
  · show (List.insertionSort bySegmentIndex
      ((_ ++ _ : List TimingDoc).filter _)).Perm _
    rw [hrec td2.segments]
    exact List.perm_insertionSort bySegmentIndex _
  · exact List.sorted_insertionSort bySegmentIndex _

/-- A concrete timing-file entry (segment 0). -/
def segT0 : SegTiming :=
  { segment_index := 0, speaker := some "narrator",
    text := some "Once upon a time", start_time := 0, duration := 5,
    end_time := 5 }

/-- A concrete timing-file entry (segment 1). -/
def segT1 : SegTiming :=
  { segment_index := 1, speaker := some "wolf",
    text := some "I will huff", start_time := 5, duration := 3,
    end_time := 8 }

theorem import_replace_roundtrip_witness :
    ∃ st1 st2 : DBState,
      import_timings { segment_timings := [], books := [] }
          { segments := [segT0, segT1], total_duration := 8 } "b" =
        .ok (([segT0, segT1] : List SegTiming).length, st1) ∧
      import_timings st1
          { segments := [segT1, segT0], total_duration := 8 } "b" =
        .ok (([segT1, segT0] : List SegTiming).length, st2) ∧
      bookRecords st2 "b" = [segT1, segT0].map (toTimingDoc "b") ∧
      (get_all_timings st2 "b").Perm ([segT1, segT0].map (toTimingDoc "b")) ∧
      List.Sorted bySegmentIndex (get_all_timings st2 "b") :=
  import_replace_roundtrip { segment_timings := [], books := [] } "b"
    { segments := [segT0, segT1], total_duration := 8 }
    { segments := [segT1, segT0], total_duration := 8 }
    (by decide) (by decide)

theorem updateBookDuration_find (books : List BookDoc) (bid : String)
    (d : ℚ) :
    (updateBookDuration books bid d).find? (fun b => b.book_id == bid) =
      (books.find? (fun b => b.book_id == bid)).map
        (fun b => { b with duration := d }) := by
  induction books with
  | nil => rfl
  | cons b rest ih =>
    by_cases hb : b.book_id == bid
    · simp [updateBookDuration, hb, List.find?_cons]
    · simp only [Bool.not_eq_true] at hb
      simp [updateBookDuration, hb, List.find?_cons, ih]

theorem updateBookDuration_absent (books : List BookDoc) (bid : String)
    (d : ℚ) (h : books.find? (fun b => b.book_id == bid) = none) :
    updateBookDuration books bid d = books := by
  induction books with
  | nil => rfl
  | cons b rest ih =>
    rw [List.find?_cons] at h
    cases hb : (b.book_id == bid) with
    | true => rw [hb] at h; simp at h
    | false =>
      rw [hb] at h
      simp only [updateBookDuration, hb, Bool.false_eq_true, if_false]
      rw [ih h]

/-- C8 (amended): a successful `import_timings` returns the number of
entries in the file's `segments` array, and — only when the file's
`total_duration` is positive — sets the `duration` of the first matching
book document to that `total_duration` (the value written comes from the
file's `total_duration` field, not from the last record's `end_time`);
when `total_duration ≤ 0`, or when no book document matches, the books
collection is unchanged. -/
theorem import_count_and_duration (st : DBState) (td : TimingData)
    (book_id : String) (n : Nat) (st' : DBState)
    (h : import_timings st td book_id = .ok (n, st')) :
    n = td.segments.length ∧
    (0 < td.total_duration →
      st'.books.find? (fun b => b.book_id == book_id) =
        (st.books.find? (fun b => b.book_id == book_id)).map
          (fun b => { b with duration := td.total_duration })) ∧
    (¬ 0 < td.total_duration → st'.books = st.books) ∧
    (st.books.find? (fun b => b.book_id == book_id) = none →
      st'.books = st.books) := by
  simp only [import_timings] at h
  cases hins : insertManyTimings
      (st.segment_timings.filter (fun d => !(d.book_id == book_id)))
      (td.segments.map (toTimingDoc book_id)) with
  | error e => rw [hins] at h; simp at h
  | ok coll =>
    rw [hins] at h
    simp only [Except.ok.injEq, Prod.mk.injEq] at h
    obtain ⟨hn, hst⟩ := h
    subst hst
    refine ⟨by rw [← hn, List.length_map], ?_, ?_, ?_⟩
    · intro hpos
      simp only [hpos, if_true]
      exact updateBookDuration_find st.books book_id td.total_duration
    · intro hneg
      simp [hneg]
    · intro habs
      by_cases hpos : 0 < td.total_duration
      · simp only [hpos, if_true]
        exact updateBookDuration_absent st.books book_id td.total_duration habs
      · simp [hpos]

/-- C8 counterexample: importing a file whose `total_duration` field is `0`
but whose (single) record ends at `5` leaves the book's stored duration at
its old value `1`, not at the last record's `end_time` `5` — the code
updates the book from the file's `total_duration`, and only when that value
is positive. -/
theorem import_duration_counterexample :
    import_timings
        { segment_timings := [], books := [{ book_id := "b", duration := 1 }] }
        { segments := [segT0], total_duration := 0 } "b" =
      .ok (1, { segment_timings := [toTimingDoc "b" segT0],
                books := [{ book_id := "b", duration := 1 }] }) ∧
    (toTimingDoc "b" segT0).end_time = 5 ∧ (1 : ℚ) ≠ 5 := by
  refine ⟨rfl, rfl, by norm_num⟩

theorem import_count_and_duration_witness :
    (1 : Nat) = ([segT0] : List SegTiming).length ∧
    ((0 : ℚ) < 5 →
      List.find? (fun b => b.book_id == "b")
          [({ book_id := "b", duration := 5 } : BookDoc)] =
        (List.find? (fun b => b.book_id == "b")
          [({ book_id := "b", duration := 1 } : BookDoc)]).map
          (fun b => { b with duration := (5 : ℚ) })) ∧
    (¬ (0 : ℚ) < 5 →
      [({ book_id := "b", duration := 5 } : BookDoc)] =
        [({ book_id := "b", duration := 1 } : BookDoc)]) ∧
    (List.find? (fun b => b.book_id == "b")
        [({ book_id := "b", duration := 1 } : BookDoc)] = none →
      [({ book_id := "b", duration := 5 } : BookDoc)] =
        [({ book_id := "b", duration := 1 } : BookDoc)]) :=
  import_count_and_duration
    { segment_timings := [], books := [{ book_id := "b", duration := 1 }] }
    { segments := [segT0], total_duration := 5 } "b" 1
    { segment_timings := [toTimingDoc "b" segT0],
      books := [{ book_id := "b", duration := 5 }] } (by rfl)

/-- C10: a timing record with `start_time = end_time` (duration `0`) can
never be returned by `find_segment_at_time`.  The estimator's formula
produces duration `0` exactly when a segment's text is empty or the group's
total text length is zero (first conjunct, with `end = start + duration`
per record as the second), and the query requires
`start_time <= t < end_time`, which forces `start_time < end_time` on any
returned record (third conjunct). -/
theorem zero_duration_segments_unreachable :
    (∀ (T : Nat) (D : ℚ) (L : Nat), L = 0 ∨ T = 0 → segDuration T D L = 0) ∧
    (∀ (c D : ℚ) (n T : Nat) (group : List Segment),
      ∀ ti ∈ (groupTimingsLoop c n T D group).1,
        ti.end_time = ti.start_time + ti.duration) ∧
    (∀ (st : DBState) (book_id : String) (t : ℚ) (r : TimingDoc),
      find_segment_at_time st book_id t = some r →
        r.start_time ≤ t ∧ t < r.end_time ∧ r.start_time ≠ r.end_time) := by
  refine ⟨?_, ?_, ?_⟩
  · intro T D L h
    unfold segDuration
    rcases h with rfl | rfl
    · split <;> simp
    · simp
  · intro c D n T group
    exact groupTimingsLoop_end_eq group c n T D
  · intro st book_id t r h
    have hpred := List.find?_some h
    simp only [Bool.and_eq_true, decide_eq_true_eq] at hpred
    obtain ⟨⟨_, h1⟩, h2⟩ := hpred
    exact ⟨h1, h2, ne_of_lt (lt_of_le_of_lt h1 h2)⟩

/-! ## SynthesisSession (generate_audio_group_websocket)

`generate_audio_group_websocket` (audio_reader.py lines 1159-1242): one
WebSocket connection per voice group.  It first sends one JSON request per
segment; the request's `"continue"` field is `not is_last`, where
`is_last = (i == len(segments_group) - 1)`.  It then reads inbound frames,
accumulating audio bytes, until a `done` frame (or end of stream), raising
on an `error` frame; finally an empty accumulated buffer is returned as
`b""` with a warning, and a non-empty one is wrapped as 16-bit-PCM WAV. -/

/-- One outbound WebSocket request, with the fields the `request` dict of
`generate_audio_group_websocket` carries (the nested `voice` and
`output_format` dicts are flattened; `continue_` models the JSON key
`"continue"`, which is a reserved word in Lean). -/
structure TtsRequest where
  model_id : String
  voice_id : String
  language : String
  transcript : String
  container : String
  sample_rate : Nat
  encoding : String
  context_id : String
  continue_ : Bool
  max_buffer_delay_ms : Nat
deriving DecidableEq

/-- The send loop of `generate_audio_group_websocket`: the requests it
sends, in order.  An empty group raises
`ValueError("Empty segment group provided")`. -/
def generateAudioGroupRequests (segments_group : List Segment)
    (context_id : String) (sample_rate : Nat) :
    Except String (List TtsRequest) :=
  match segments_group with
  | [] => .error "Empty segment group provided"
  | first :: _ =>
    .ok (segments_group.enum.map (fun p =>
      let i := p.1
      let segment := p.2
      let is_last := i == segments_group.length - 1
      { model_id := "sonic-3"
        voice_id := first.voice_id
        language := first.language.getD "en"
        transcript := segment.text
        container := "raw"
        sample_rate := sample_rate
        encoding := "pcm_f32le"
        context_id := context_id
        continue_ := !is_last
        max_buffer_delay_ms := 0 }))

/-- C1 counterexample: for a group of two segments, the requests carry
`continue = [true, false]` — the first request's continuation field is
`true`, not `false` as the claim states.  (In this protocol `continue`
means "more input follows for this context", so it is `false` exactly on
the last request.) -/
theorem group_continuation_counterexample :
    (generateAudioGroupRequests [segAlice, segAlice] "ctx-1" 44100).map
      (fun reqs => reqs.map (fun r => r.continue_)) =
      .ok [true, false] := by
  rfl

/-- C1 (amended): for every non-empty group, the request for every segment
except the last carries `continue = true` and the last segment's request
carries `continue = false`: the field signals "more input follows for this
context", so the last request is precisely the one that signals that no
more input follows. -/
theorem group_continuation_flags (segments_group : List Segment)
    (context_id : String) (sample_rate : Nat)
    (hne : segments_group ≠ []) :
    ∃ reqs, generateAudioGroupRequests segments_group context_id
        sample_rate = .ok reqs ∧
      reqs.length = segments_group.length ∧
      ∀ i (h : i < reqs.length),
        ((reqs.get ⟨i, h⟩).continue_ = true ↔
          i + 1 < segments_group.length) := by
  obtain ⟨first, rest, rfl⟩ := List.exists_cons_of_ne_nil hne
  refine ⟨_, rfl, ?_, ?_⟩
  · simp [List.length_map, List.enum_length]
  · intro i h
    simp only [List.length_map, List.enum_length] at h
    rw [List.get_map]
    have hget : (first :: rest).enum.get ⟨i, by simpa using h⟩ =
        (i, (first :: rest).get ⟨i, h⟩) := by
      simp [List.get_enum]
    rw [hget]
    simp only [Bool.not_eq_true', beq_eq_false_iff_ne, ne_eq]
    constructor
    · intro hne'
      have := List.length_cons first rest
      omega
    · intro hlt hcontra
      omega

/-- An inbound WebSocket frame, as the receive loop of
`generate_audio_group_websocket` distinguishes them: a binary message, or a
JSON message whose `type` is `chunk` (carrying an optional `data` payload —
already base64-decoded here; `none` stands for a missing or undecodable
payload, which the loop skips with a warning), `done`, `error`, or anything
else (ignored). -/
inductive InboundFrame where
  | binary (payload : List Nat)
  | chunk (data : Option (List Nat))
  | done
  | error (msg : String)
  | other (type_name : String)
deriving DecidableEq

/-- The receive loop of `generate_audio_group_websocket` (lines 1199-1224):
accumulate audio bytes until a `done` frame (or the end of the stream),
raise on an `error` frame. -/
def receiveLoop : List InboundFrame → List Nat → Except String (List Nat)
  | [], acc => .ok acc
  | f :: rest, acc =>
    match f with
    | .binary payload => receiveLoop rest (acc ++ payload)
    | .chunk none => receiveLoop rest acc
    | .chunk (some payload) => receiveLoop rest (acc ++ payload)
    | .done => .ok acc
    | .error msg => .error ("Cartesia WebSocket error: " ++ msg)
    | .other _ => receiveLoop rest acc

/-- What the tail of `generate_audio_group_websocket` returns: `b""` for an
empty buffer, otherwise the buffer wrapped as a 16-bit-PCM WAV (the numeric
re-encoding is abstracted: `wav` keeps the raw bytes it wraps). -/
inductive GroupAudioResult where
  | emptyBytes
  | wav (raw_pcm : List Nat)
deriving DecidableEq

/-- Lines 1226-1238: `if not all_audio_bytes: return b""`, else wrap as
WAV.  No error is raised on an empty buffer. -/
def finalizeGroupAudio (all_audio_bytes : List Nat) :
    Except String GroupAudioResult :=
  if all_audio_bytes.isEmpty then .ok .emptyBytes
  else .ok (.wav all_audio_bytes)

/-- The receive-and-finalize tail of `generate_audio_group_websocket`. -/
def groupSessionResult (frames : List InboundFrame) :
    Except String GroupAudioResult :=
  match receiveLoop frames [] with
  | .error e => .error e
  | .ok acc => finalizeGroupAudio acc

/-- Lines 1450-1456 of the single-segment `generate_audio_websocket`: an
empty buffer raises `ValueError`; `np.frombuffer(dtype=float32)` yields
`len / 4` samples, and an empty sample array also raises. -/
def finalizeSingleAudio (audio_bytes : List Nat) :
    Except String GroupAudioResult :=
  if audio_bytes.isEmpty then
    .error "No audio data received from Cartesia WebSocket"
  else if audio_bytes.length / 4 == 0 then
    .error "Received empty audio data from Cartesia WebSocket"
  else .ok (.wav audio_bytes)

/-- C6 counterexample: a group session whose stream ends with `done` and no
audio returns `b""` successfully — the empty buffer is silently converted
into an empty result, and no error of any message is raised, contradicting
the claim that an `EmptyAudioError` propagates to the caller. -/
theorem empty_audio_group_counterexample :
    groupSessionResult [InboundFrame.done] =
      .ok GroupAudioResult.emptyBytes ∧
    ∀ e, groupSessionResult [InboundFrame.done] ≠ .error e := by
  refine ⟨rfl, ?_⟩
  intro e h
  rw [show groupSessionResult [InboundFrame.done] =
    .ok GroupAudioResult.emptyBytes from rfl] at h
  exact Except.noConfusion h

/-- C6 (amended): in the group path (`generate_audio_group_websocket`) an
empty accumulated buffer is returned as the empty byte string `b""` with a
logged warning — it is not an error; only the single-segment path
(`generate_audio_websocket`) raises on an empty buffer.  A non-empty buffer
is wrapped as WAV. -/
theorem empty_audio_handling (frames : List InboundFrame) (buf : List Nat) :
    (receiveLoop frames [] = .ok [] →
      groupSessionResult frames = .ok GroupAudioResult.emptyBytes) ∧
    finalizeGroupAudio [] = .ok GroupAudioResult.emptyBytes ∧
    finalizeSingleAudio [] =
      .error "No audio data received from Cartesia WebSocket" ∧
    (buf ≠ [] → finalizeGroupAudio buf = .ok (.wav buf)) := by
  refine ⟨?_, rfl, rfl, ?_⟩
  · intro h
    unfold groupSessionResult
    rw [h]
    rfl
  · intro h
    unfold finalizeGroupAudio
    rw [if_neg (by simpa using h)]

/-! ## search_by_text and the `$regex` filter

`search_by_text` (timing_service.py lines 235-255) filters with
`{"text": {"$regex": search_text, "$options": "i"}}`: the search string is
interpreted as a case-insensitive, unanchored regular expression — not as a
literal substring.  The model below covers the PCRE fragment the theorems
use: literal characters and the `.` any-character wildcard (patterns using
other metacharacters are outside the model). -/

/-- One token of a parsed search pattern. -/
inductive RegexTok where
  | lit (c : Char)
  | dot
deriving DecidableEq

/-- Parse a search string as the `$regex` operator reads it (modelled
fragment: `.` is the wildcard, every other character a literal). -/
def parsePattern (s : String) : List RegexTok :=
  s.data.map (fun c => if c = '.' then RegexTok.dot else RegexTok.lit c)

/-- Case-insensitive token-vs-character match (`$options: "i"`). -/
def tokMatch : RegexTok → Char → Bool
  | .dot, _ => true
  | .lit c, d => c.toLower == d.toLower

/-- Does the pattern match at the start of the text? -/
def matchHere : List RegexTok → List Char → Bool
  | [], _ => true
  | _ :: _, [] => false
  | t :: ts, c :: cs => tokMatch t c && matchHere ts cs

/-- Unanchored matching: try every starting position, as `$regex` does. -/
def regexSearch (ts : List RegexTok) : List Char → Bool
  | [] => matchHere ts []
  | c :: cs => matchHere ts (c :: cs) || regexSearch ts cs

/-- The per-document text filter of `search_by_text`. -/
def regexFilter (search_text text : String) : Bool :=
  regexSearch (parsePattern search_text) text.data

/-- Models `TimingService.search_by_text`: the book's documents whose `text`
matches the regex, sorted by `segment_index`. -/
def search_by_text (st : DBState) (book_id : String) (search_text : String) :
    List TimingDoc :=
  List.insertionSort bySegmentIndex
    (st.segment_timings.filter (fun d =>
      d.book_id == book_id && regexFilter search_text d.text))

/-- Modelled from the spec: `pat` occurs as a contiguous substring of
`txt` (both already case-folded by the caller). -/
def isSubstr : List Char → List Char → Bool
  | pat, [] => pat.isPrefixOf []
  | pat, c :: rest => pat.isPrefixOf (c :: rest) || isSubstr pat rest

/-- Modelled from the spec: the search string occurs in the text as a
case-insensitive substring. -/
def containsCI (s text : String) : Bool :=
  isSubstr (s.data.map Char.toLower) (text.data.map Char.toLower)

theorem isPrefixOf_iff_append (p : List Char) :
    ∀ t : List Char, p.isPrefixOf t = true ↔ ∃ post, t = p ++ post := by
  induction p with
  | nil => intro t; simp [List.isPrefixOf]
  | cons c p ih =>
    intro t
    cases t with
    | nil => simp [List.isPrefixOf]
    | cons d t' =>
      simp only [List.isPrefixOf, Bool.and_eq_true, beq_iff_eq, ih,
        List.cons_append, List.cons.injEq]
      constructor
      · rintro ⟨rfl, post, rfl⟩; exact ⟨post, rfl, rfl⟩
      · rintro ⟨post, rfl, rfl⟩; exact ⟨rfl, post, rfl⟩

theorem isSubstr_iff_middle (p : List Char) :
    ∀ t : List Char, isSubstr p t = true ↔ ∃ pre post, t = pre ++ p ++ post := by
  intro t
  induction t with
  | nil =>
    simp only [isSubstr, isPrefixOf_iff_append]
    constructor
    · rintro ⟨post, h⟩; exact ⟨[], post, by simpa using h⟩
    · rintro ⟨pre, post, h⟩
      rcases List.append_eq_nil.mp (List.append_eq_nil.mp h.symm).1 with ⟨h1, h2⟩
      exact ⟨post, by simp [h2, (List.append_eq_nil.mp h.symm).2]⟩
  | cons c rest ih =>
    simp only [isSubstr, Bool.or_eq_true, isPrefixOf_iff_append, ih]
    constructor
    · rintro (⟨post, h⟩ | ⟨pre, post, h⟩)
      · exact ⟨[], post, by simpa using h⟩
      · exact ⟨c :: pre, post, by simp [h]⟩
    · rintro ⟨pre, post, h⟩
      cases pre with
      | nil => exact Or.inl ⟨post, by simpa using h⟩
      | cons x pre' =>
        right
        simp only [List.cons_append, List.cons.injEq] at h
        exact ⟨pre', post, h.2⟩

/-- The PCRE metacharacters; a pattern avoiding all of them is matched
literally (the model treats `.` as the wildcard and everything else as a
literal, so on metacharacter-free patterns model and PCRE agree). -/
def isPcreMeta (c : Char) : Bool :=
  c == '\\' || c == '^' || c == '$' || c == '.' || c == '|' || c == '?' ||
  c == '*' || c == '+' || c == '(' || c == ')' || c == '[' || c == ']' ||
  c == '\x7b' || c == '\x7d'

theorem matchHere_lit (p : List Char) :
    ∀ cs : List Char,
      matchHere (p.map RegexTok.lit) cs =
        (p.map Char.toLower).isPrefixOf (cs.map Char.toLower) := by
  induction p with
  | nil => intro cs; simp [matchHere, List.isPrefixOf]
  | cons c p ih =>
    intro cs
    cases cs with
    | nil => simp [matchHere, List.isPrefixOf]
    | cons d cs' =>
      simp only [List.map_cons, matchHere, tokMatch, List.isPrefixOf, ih]

theorem regexSearch_lit (p : List Char) :
    ∀ cs : List Char,
      regexSearch (p.map RegexTok.lit) cs =
        isSubstr (p.map Char.toLower) (cs.map Char.toLower) := by
  intro cs
  induction cs with
  | nil => simp [regexSearch, isSubstr, matchHere_lit]
  | cons c cs' ih =>
    simp only [regexSearch, List.map_cons, isSubstr, matchHere_lit,
      List.map_cons, ih]

theorem parsePattern_plain (s : String)
    (h : ∀ c ∈ s.data, isPcreMeta c = false) :
    parsePattern s = s.data.map RegexTok.lit := by
  unfold parsePattern
  apply List.map_congr_left
  intro c hc
  have := h c hc
  simp only [isPcreMeta, Bool.or_eq_false_iff, beq_eq_false_iff_ne] at this
  simp [this.1.1.1.1.1.1.1.1.1.1.2]

theorem regexFilter_plain (s text : String)
    (h : ∀ c ∈ s.data, isPcreMeta c = false) :
    regexFilter s text = containsCI s text := by
  unfold regexFilter containsCI
  rw [parsePattern_plain s h, regexSearch_lit]

/-- C9 (amended): for search strings containing no PCRE metacharacter,
`search_by_text` returns exactly the book's records whose text contains the
string as a case-insensitive substring, ordered by `segment_index`, and the
empty list when no record matches.  (For general strings the filter is a
case-insensitive regular expression, not a literal substring — see the
counterexample.) -/
theorem search_case_insensitive_substring (st : DBState)
    (book_id s : String) (h : ∀ c ∈ s.data, isPcreMeta c = false) :
    (search_by_text st book_id s).Perm
      (st.segment_timings.filter (fun d =>
        d.book_id == book_id && containsCI s d.text)) ∧
    List.Sorted bySegmentIndex (search_by_text st book_id s) ∧
    ((∀ d ∈ st.segment_timings, d.book_id = book_id →
        containsCI s d.text = false) →
      search_by_text st book_id s = []) ∧
    (∀ d ∈ search_by_text st book_id s,
      d ∈ st.segment_timings ∧ d.book_id = book_id ∧
        ∃ pre post, d.text.data.map Char.toLower =
          pre ++ s.data.map Char.toLower ++ post) := by
  have hfilter : st.segment_timings.filter (fun d =>
      d.book_id == book_id && regexFilter s d.text) =
      st.segment_timings.filter (fun d =>
        d.book_id == book_id && containsCI s d.text) :=
    List.filter_congr (fun d _ => by rw [regexFilter_plain s d.text h])
  have hsearch : search_by_text st book_id s =
      List.insertionSort bySegmentIndex
        (st.segment_timings.filter (fun d =>
          d.book_id == book_id && containsCI s d.text)) := by
    unfold search_by_text
    rw [hfilter]
  refine ⟨?_, ?_, ?_, ?_⟩
  · rw [hsearch]
    exact List.perm_insertionSort bySegmentIndex _
  · rw [hsearch]
    exact List.sorted_insertionSort bySegmentIndex _
  · intro hno
    rw [hsearch]
    have : st.segment_timings.filter (fun d =>
        d.book_id == book_id && containsCI s d.text) = [] := by
      rw [List.filter_eq_nil_iff]
      intro d hd
      by_cases hb : d.book_id = book_id
      · simp [hb, hno d hd hb]
      · simp [hb]
    rw [this]
    rfl
  · intro d hd
    rw [hsearch] at hd
    have hd' : d ∈ st.segment_timings.filter (fun d =>
        d.book_id == book_id && containsCI s d.text) :=
      (List.perm_insertionSort bySegmentIndex _).subset hd
    have hmem := List.mem_filter.mp hd'
    have hpred := hmem.2
    simp only [Bool.and_eq_true, beq_iff_eq] at hpred
    refine ⟨hmem.1, hpred.1, ?_⟩
    have := hpred.2
    unfold containsCI at this
    exact (isSubstr_iff_middle _ _).mp this

/-- The record used by the C9 counterexample: its text `"ab"` contains no
literal dot. -/
def docAB : TimingDoc :=
  { book_id := "b", segment_index := 0, speaker := "narrator",
    text := "ab", start_time := 0, duration := 1, end_time := 1 }

/-- C9 counterexample: searching for the one-character string `"."` returns
the record with text `"ab"` even though `"ab"` does not contain `"."` as a
(case-insensitive) substring — `$regex` treats the search string as a
regular expression, where `.` matches any character. -/
theorem search_regex_counterexample :
    search_by_text { segment_timings := [docAB], books := [] } "b" "." =
      [docAB] ∧
    containsCI "." "ab" = false := by
  exact ⟨rfl, rfl⟩

/-- The record used by the C9 witness. -/
def docWolf : TimingDoc :=
  { book_id := "b", segment_index := 0, speaker := "narrator",
    text := "The Wolf howled", start_time := 0, duration := 2, end_time := 2 }

theorem search_case_insensitive_substring_witness :
    (search_by_text { segment_timings := [docWolf], books := [] } "b"
        "wolf").Perm
      (({ segment_timings := [docWolf], books := [] } :
          DBState).segment_timings.filter (fun d =>
        d.book_id == "b" && containsCI "wolf" d.text)) ∧
    List.Sorted bySegmentIndex
      (search_by_text { segment_timings := [docWolf], books := [] } "b"
        "wolf") ∧
    ((∀ d ∈ ({ segment_timings := [docWolf], books := [] } :
        DBState).segment_timings, d.book_id = "b" →
        containsCI "wolf" d.text = false) →
      search_by_text { segment_timings := [docWolf], books := [] } "b"
        "wolf" = []) ∧
    (∀ d ∈ search_by_text { segment_timings := [docWolf], books := [] } "b"
        "wolf",
      d ∈ ({ segment_timings := [docWolf], books := [] } :
        DBState).segment_timings ∧ d.book_id = "b" ∧
        ∃ pre post, d.text.data.map Char.toLower =
          pre ++ "wolf".data.map Char.toLower ++ post) :=
  search_case_insensitive_substring
    { segment_timings := [docWolf], books := [] } "b" "wolf" (by decide)

theorem group_continuation_flags_witness :
    ∃ reqs, generateAudioGroupRequests [segAlice, segAlice] "ctx-1" 44100 =
        .ok reqs ∧
      reqs.length = ([segAlice, segAlice] : List Segment).length ∧
      ∀ i (h : i < reqs.length),
        ((reqs.get ⟨i, h⟩).continue_ = true ↔
          i + 1 < ([segAlice, segAlice] : List Segment).length) :=
  group_continuation_flags [segAlice, segAlice] "ctx-1" 44100 (by simp)
